import Mathlib

/-!
# ROS map generator: the floor-plan synthesis pipeline

A shallow embedding of `src/ros_navigation_environment.cpp`
(`RosNavigationEnvironment`): room separation, bounds filtering, hall
selection, the relative-neighbourhood graph and corridor routing.

Conventions of the embedding.

* Coordinates are mathematical integers (`Int`). The program computes with
  `int64_t`; signed overflow is undefined behaviour in C++, so the embedding
  describes the executions in which no intermediate value leaves the 64-bit
  range. The member and getter types are declared in headers that are not
  among the sources, so comparisons are the comparisons of the integers.
* `rooms_` (a random-access sequence) is a `List Room`; iterators are indices.
* The unbounded `do ... while (touching)` loop of `separateRooms` takes a
  fuel argument and returns `none` when the fuel runs out.
* The squared centre distances are computed by the program in `double`; they
  are exact for coordinates below `2^26` in magnitude and are embedded as
  integers.
-/

namespace RosMap

/-! ## The rectangle entity -/

/-- Modelled from the spec: the rectangle entity `Room`, whose class (room.h,
room.cpp) is not among the sources. It is built from a position and a size
(`Room(x, y, width, height)`, the corridor constructor used by `connectRooms`),
the random-room constructor takes an obstacle padding in addition. -/
structure Room where
  x : Int
  y : Int
  width : Int
  height : Int
  obstacle_padding : Int
  deriving DecidableEq, Repr

namespace Room

/-- Modelled from the spec: the corridor constructor `Room(x, y, width, height)`
("explicit corner+size corridor segment"); it carries no obstacle padding. -/
def corridor (x y width height : Int) : Room :=
  { x := x, y := y, width := width, height := height, obstacle_padding := 0 }

/-- Modelled from the spec: `Room::getLeft`, an edge "consistent with
center+size"; the position is the corner of smallest coordinates. -/
def getLeft (r : Room) : Int := r.x

/-- Modelled from the spec: `Room::getRight`. -/
def getRight (r : Room) : Int := r.x + r.width

/-- Modelled from the spec: `Room::getTop`; the y axis points down, as the
symmetric use of right/bottom and left/top in `separateRooms` indicates. -/
def getTop (r : Room) : Int := r.y

/-- Modelled from the spec: `Room::getBottom`. -/
def getBottom (r : Room) : Int := r.y + r.height

/-- Modelled from the spec: `Room::getCenterX`, the centre coordinate derived
from position and size (integer halving). -/
def getCenterX (r : Room) : Int := r.x + Int.tdiv r.width 2

/-- Modelled from the spec: `Room::getCenterY`. -/
def getCenterY (r : Room) : Int := r.y + Int.tdiv r.height 2

/-- Modelled from the spec: the area (width × height) by which
`Room::CompareBySquare` ranks rooms. -/
def area (r : Room) : Int := r.width * r.height

/-- Modelled from the spec: `Room::relocate(dx, dy)` "translates the
rectangle". -/
def relocate (r : Room) (dx dy : Int) : Room :=
  { r with x := r.x + dx, y := r.y + dy }

/-- Modelled from the spec: `Room::touches(other, padding)`: "rectangles
overlap or are separated by less than `padding` along both axes". -/
def touches (a b : Room) (padding : Int) : Bool :=
  decide (a.getLeft - b.getRight < padding) && decide (b.getLeft - a.getRight < padding) &&
    decide (a.getTop - b.getBottom < padding) && decide (b.getTop - a.getBottom < padding)

end Room

/-- C++ `std::abs` on integers. -/
def iabs (z : Int) : Int := if z < 0 then -z else z

/-- Extent of the common part of the x projections of two rooms (negative or
zero when the projections are disjoint or only share an end point). -/
def overlapX (a b : Room) : Int := min a.getRight b.getRight - max a.getLeft b.getLeft

/-- Extent of the common part of the y projections of two rooms. -/
def overlapY (a b : Room) : Int := min a.getBottom b.getBottom - max a.getTop b.getTop

/-! ## separateRooms -/

/-- Lines 56-67 of `separateRooms`: the two deltas of a touching pair, after
the smaller-magnitude one has been kept and the other zeroed. -/
def separateDeltas (room_a room_b : Room) (padding : Int) : Int × Int :=
  let delta_x := min (room_a.getRight - room_b.getLeft + padding)
                     (room_a.getLeft - room_b.getRight - padding)
  let delta_y := min (room_a.getBottom - room_b.getTop + padding)
                     (room_a.getTop - room_b.getBottom - padding)
  if iabs delta_x < iabs delta_y then (delta_x, 0) else (0, delta_y)

/-- Lines 69-79 of `separateRooms`: the relocated pair. -/
def separatePair (room_a room_b : Room) (padding : Int) : Room × Room :=
  let d := separateDeltas room_a room_b padding
  let delta_x_a := Int.tdiv (-d.1) 2
  let delta_x_b := d.1 + delta_x_a
  let delta_y_a := Int.tdiv (-d.2) 2
  let delta_y_b := d.2 + delta_y_a
  (room_a.relocate delta_x_a delta_y_a, room_b.relocate delta_x_b delta_y_b)

/-- Body of the inner loop of `separateRooms` for the pair of indices
`(i, j)`; the state is the room sequence and the `touching` flag. -/
def separateStep (padding : Int) (i j : Nat) (st : List Room × Bool) : List Room × Bool :=
  match st.1[i]?, st.1[j]? with
  | some room_a, some room_b =>
      if room_a.touches room_b padding then
        let p := separatePair room_a room_b padding
        ((st.1.set i p.1).set j p.2, true)
      else st
  | _, _ => st

/-- The inner loop `for (j = i + 1; j < rooms_.size(); j++)`. -/
def separateInner (padding : Int) (n i : Nat) (st : List Room × Bool) : List Room × Bool :=
  (List.range' (i + 1) (n - (i + 1))).foldl (fun s j => separateStep padding i j s) st

/-- One pass of the `do` body: `touching = false` and the two nested loops. -/
def separatePass (padding : Int) (rooms : List Room) : List Room × Bool :=
  (List.range rooms.length).foldl (fun s i => separateInner padding rooms.length i s)
    (rooms, false)

/-- `RosNavigationEnvironment::separateRooms`: passes are repeated while the
last one found a touching pair; `none` when the fuel is exhausted first. -/
def separateRooms (padding : Int) : Nat → List Room → Option (List Room)
  | 0, _ => none
  | fuel + 1, rooms =>
      let st := separatePass padding rooms
      if st.2 then separateRooms padding fuel st.1 else some st.1

/-! ## removeOverboundingRooms -/

/-- The erase condition of `removeOverboundingRooms` (lines 89-92). -/
def overbounding (width_ height_ : Nat) (room : Room) : Bool :=
  decide ((height_ : Int) ≤ room.getTop) || decide (room.getBottom < 0) ||
    decide ((width_ : Int) ≤ room.getRight) || decide (room.getLeft < 0)

/-- The iterator scan of `removeOverboundingRooms`; `room` is the position of
the iterator. `rooms_.erase(room--)` removes the element at `room` and leaves
the iterator one position before it, the `++room` of the loop header brings it
back to `room`, where the next element now stands. The scan ends when the
iterator reaches `rooms_.end()`. -/
def removeScan (width_ height_ : Nat) : Nat → List Room → Nat → List Room
  | 0, rooms, _ => rooms
  | fuel + 1, rooms, room =>
      match rooms[room]? with
      | none => rooms
      | some r =>
          if overbounding width_ height_ r then
            removeScan width_ height_ fuel (rooms.eraseIdx room) room
          else
            removeScan width_ height_ fuel rooms (room + 1)

/-- `RosNavigationEnvironment::removeOverboundingRooms`: every iteration either
erases an element or advances, so `rooms.length` iterations reach the end. -/
def removeOverboundingRooms (width_ height_ : Nat) (rooms : List Room) : List Room :=
  removeScan width_ height_ rooms.length rooms 0

/-! ## createRNG -/

/-- Modelled from the spec: the order of `Room::CompareBySquare` ("sort the
remaining rectangles by area, descending"); `std::sort` leaves the relative
order of rooms of equal area open, the embedding keeps their input order. -/
def sortBySquare (rooms : List Room) : List Room :=
  rooms.insertionSort (fun a b => b.area ≤ a.area)

/-- Lines 101-103 of `createRNG`: the halls are the first `size / 2` rooms of
the sorted sequence. -/
def selectHalls (rooms : List Room) : List Room :=
  (sortBySquare rooms).take (rooms.length / 2)

/-- The squared distance between the centres of two rooms (lines 134-135). -/
def squaredDistance (room_a room_b : Room) : Int :=
  (room_a.getCenterX - room_b.getCenterX) ^ 2 + (room_a.getCenterY - room_b.getCenterY) ^ 2

/-- The squared centre distance of the halls at positions `i` and `j`. -/
def hallDistance (halls : List Room) (i j : Nat) : Int :=
  match halls[i]?, halls[j]? with
  | some room_a, some room_b => squaredDistance room_a room_b
  | _, _ => 0

/-- The loop over `room_c` (lines 138-161): `skip` becomes true as soon as a
hall other than `a` and `b` is strictly closer to both. -/
def skipEdge (halls : List Room) (i j : Nat) : Bool :=
  (List.range halls.length).any fun k =>
    k != i && k != j &&
      decide (hallDistance halls i k < hallDistance halls i j) &&
      decide (hallDistance halls j k < hallDistance halls i j)

/-- The edges added to `room_graph_` by `createRNG` (lines 127-169), in the
order of the `boost::add_edge` calls; vertices are hall positions. -/
def rngEdges (halls : List Room) : List (Nat × Nat) :=
  (List.range halls.length).flatMap fun i =>
    ((List.range' (i + 1) (halls.length - (i + 1))).filter fun j =>
      !skipEdge halls i j && i != j).map fun j => (i, j)

/-- `RosNavigationEnvironment::createRNG`: the halls (the new `rooms_`), the
number of vertices added to `room_graph_` and its edges. -/
def createRNG (rooms : List Room) : List Room × Nat × List (Nat × Nat) :=
  let halls := selectHalls rooms
  (halls, halls.length, rngEdges halls)

/-! ## connectRooms -/

/-- Modelled from the spec: the randomness source `Randomizer` (randomizer.h is
not among the sources), "a seeded source of integers, consumed through a single
operation that returns a new value on each call"; `calls` counts the draws. -/
structure Randomizer where
  stream : Nat → Int
  calls : Nat

/-- Modelled from the spec: `Randomizer::next_rand`. -/
def Randomizer.next_rand (r : Randomizer) : Int × Randomizer :=
  (r.stream r.calls, { r with calls := r.calls + 1 })

/-- Modelled from the spec: `boost::adjacent_vertices` on `room_graph_`, whose
type is declared in a header that is not among the sources; the spec describes
the graph as undirected, so an edge is listed at both of its end points, in
insertion order. -/
def adjacentVertices (edges : List (Nat × Nat)) (v : Nat) : List Nat :=
  edges.filterMap fun e =>
    if e.1 = v then some e.2 else if e.2 = v then some e.1 else none

/-- Lines 190-220 of `connectRooms`: the two corridor rooms pushed for the
vertex `room_v` and its neighbour `room_n`, for the random value `r`. -/
def routeCorridor (corridor_width_ : Int) (room_v room_n : Room) (r : Int) : List Room :=
  let room_a := if room_v.getCenterX < room_n.getCenterX then room_v else room_n
  let room_b := if room_v.getCenterX < room_n.getCenterX then room_n else room_v
  let a_x := room_a.getCenterX
  let a_y := room_a.getCenterY
  let b_x := room_b.getCenterX
  let b_y := room_b.getCenterY
  let delta_x := b_x - a_x
  let delta_y := b_y - a_y
  if Int.tmod r 2 ≠ 0 then
    [Room.corridor a_x a_y (iabs delta_x + corridor_width_) corridor_width_,
     Room.corridor b_x (min a_y b_y) corridor_width_ (iabs delta_y)]
  else
    [Room.corridor a_x (min a_y b_y) corridor_width_ (iabs delta_y),
     Room.corridor a_x b_y (iabs delta_x) corridor_width_]

/-- Body of the inner loop of `connectRooms` for vertex `v` and neighbour `n`:
the rooms are read through the pointers stored in the graph (positions `v` and
`n` of `rooms_`, whose storage is taken not to move while rooms are pushed),
one random value is drawn, two rooms are pushed. -/
def connectStep (corridor_width_ : Int) (v n : Nat) (st : List Room × Randomizer) :
    List Room × Randomizer :=
  match st.1[v]?, st.1[n]? with
  | some room_v, some room_n =>
      let d := st.2.next_rand
      (st.1 ++ routeCorridor corridor_width_ room_v room_n d.1, d.2)
  | _, _ => st

/-- `RosNavigationEnvironment::connectRooms`: for every vertex, for every
adjacent vertex. -/
def connectRooms (corridor_width_ : Int) (vertices : Nat) (edges : List (Nat × Nat))
    (st : List Room × Randomizer) : List Room × Randomizer :=
  (List.range vertices).foldl
    (fun s v => (adjacentVertices edges v).foldl (fun s n => connectStep corridor_width_ v n s) s)
    st

/-! ## The constructor -/

/-- Modelled from the spec: the random-room constructor
`Room(random, obstacle_padding, x, y, width, height)`; the obstacle placement it
may perform is outside the pipeline and is not embedded. -/
def Room.random (obstacle_padding x y width height : Int) : Room :=
  { x := x, y := y, width := width, height := height, obstacle_padding := obstacle_padding }

/-- The generation loop of the constructor (lines 13-21); the two draws are
taken in the order in which they are written (width, then height). -/
def generateRooms (min_size max_size corridor_width : Int) (width height : Nat)
    (obstacles : Bool) : Nat → List Room × Randomizer → List Room × Randomizer
  | 0, st => st
  | amount + 1, st =>
      let d1 := st.2.next_rand
      let d2 := d1.2.next_rand
      generateRooms min_size max_size corridor_width width height obstacles amount
        (st.1 ++ [Room.random (if obstacles then corridor_width else 0)
                    ((width / 2 : Nat) : Int) ((height / 2 : Nat) : Int)
                    (Int.tmod (iabs d1.1) max_size + min_size)
                    (Int.tmod (iabs d2.1) max_size + min_size)], d2.2)

/-- The state of a constructed `RosNavigationEnvironment`. -/
structure RosNavigationEnvironment where
  width_ : Nat
  height_ : Nat
  corridor_width_ : Int
  random_ : Randomizer
  rooms_ : List Room
  room_vertices_ : Nat
  room_graph_ : List (Nat × Nat)

/-- The stages of the constructor after separation (lines 24-28), from the
separated rooms: bounds filter, hall selection and graph, corridor routing,
reversal. -/
def finishEnvironment (corridor_width : Int) (width height : Nat) (random : Randomizer)
    (separated : List Room) : RosNavigationEnvironment :=
  let g := createRNG (removeOverboundingRooms width height separated)
  let st := connectRooms corridor_width g.2.1 g.2.2 (g.1, random)
  { width_ := width, height_ := height, corridor_width_ := corridor_width,
    random_ := st.2, rooms_ := st.1.reverse,
    room_vertices_ := g.2.1, room_graph_ := g.2.2 }

/-- `RosNavigationEnvironment::RosNavigationEnvironment`; `none` when the
separation does not finish within `fuel` passes. -/
def RosNavigationEnvironment.create (fuel : Nat) (amount : Nat)
    (min_size max_size corridor_width : Int) (width height : Nat) (random : Randomizer)
    (obstacles : Bool) : Option RosNavigationEnvironment :=
  let g := generateRooms min_size max_size corridor_width width height obstacles amount
    ([], random)
  match separateRooms 0 fuel g.1 with
  | none => none
  | some separated => some (finishEnvironment corridor_width width height g.2 separated)

/-! ## main: the parameters handed to the constructor -/

/-- Lines 84-86 of `main`: a room count of 0 becomes 1. -/
def coerceRoomAmount (room_amount : Nat) : Nat :=
  if room_amount = 0 then 1 else room_amount

/-- Lines 88-94 of `main`: `min_size` and `max_size`. The argument `q` is
`static_cast<int64_t>(robot_size / resolution)`; `sizeOptions` is present when
the option `min-size` was given and then holds
`static_cast<int64_t>(actual_min_size / resolution)` and
`static_cast<int64_t>(actual_max_size / resolution)`. -/
def deriveSizes (q : Int) (sizeOptions : Option (Int × Int)) : Int × Int :=
  let min_size := q * 4
  let max_size := min_size * 2
  match sizeOptions with
  | some o =>
      let min_size' := max min_size o.1
      (min_size', max o.2 (min_size' + 1))
  | none => (min_size, max_size)

/-- The delta of the x axis before one of the two deltas is zeroed (lines
57-58 of `separateRooms`). -/
def overlapDeltaX (room_a room_b : Room) (padding : Int) : Int :=
  min (room_a.getRight - room_b.getLeft + padding) (room_a.getLeft - room_b.getRight - padding)

/-- The delta of the y axis before one of the two deltas is zeroed (lines
59-60 of `separateRooms`). -/
def overlapDeltaY (room_a room_b : Room) (padding : Int) : Int :=
  min (room_a.getBottom - room_b.getTop + padding) (room_a.getTop - room_b.getBottom - padding)

/-- The two per-room displacements of a delta (lines 70-71 and 74-75 of
`separateRooms`): `delta_a = -delta / 2`, `delta_b = delta + delta_a`. -/
def halveDelta (delta : Int) : Int × Int :=
  (Int.tdiv (-delta) 2, delta + Int.tdiv (-delta) 2)

/-- The bounds filter as the spec words it: the rooms for which none of the
four out-of-bounds tests holds, as a new sequence in the original order. -/
def boundsFilterSpec (width_ height_ : Nat) (rooms : List Room) : List Room :=
  rooms.filter fun room =>
    !(decide ((height_ : Int) ≤ room.getTop) || decide (room.getBottom < 0) ||
      decide ((width_ : Int) ≤ room.getRight) || decide (room.getLeft < 0))

/-- The room the generation loop creates in its iteration `k`, from the two
values the randomness source yields at the draws `calls + 2 k` and
`calls + 2 k + 1`. -/
def generatedRoom (min_size max_size corridor_width : Int) (width height : Nat)
    (obstacles : Bool) (random : Randomizer) (k : Nat) : Room :=
  Room.random (if obstacles then corridor_width else 0)
    ((width / 2 : Nat) : Int) ((height / 2 : Nat) : Int)
    (Int.tmod (iabs (random.stream (random.calls + 2 * k))) max_size + min_size)
    (Int.tmod (iabs (random.stream (random.calls + 2 * k + 1))) max_size + min_size)

/-- The halls of a constructed environment: the last `room_vertices_` entries
of the reversed `rooms_`, listed in their ranked order. -/
def RosNavigationEnvironment.halls (env : RosNavigationEnvironment) : List Room :=
  env.rooms_.reverse.take env.room_vertices_

/-- The (vertex, neighbour) visits of the two nested loops of `connectRooms`,
in the order in which they happen. -/
def routeVisits (vertices : Nat) (edges : List (Nat × Nat)) : List (Nat × Nat) :=
  (List.range vertices).flatMap fun v => (adjacentVertices edges v).map fun n => (v, n)

/-- The corridor rooms of a sequence of visits, each computed from the halls
at the two positions and the next value of the randomness source. -/
def corridorsOf (corridor_width_ : Int) (halls : List Room) :
    List (Nat × Nat) → Randomizer → List Room
  | [], _ => []
  | e :: rest, r =>
      match halls[e.1]?, halls[e.2]? with
      | some room_v, some room_n =>
          routeCorridor corridor_width_ room_v room_n r.next_rand.1 ++
            corridorsOf corridor_width_ halls rest r.next_rand.2
      | _, _ => corridorsOf corridor_width_ halls rest r

/-- The halls of the environment finished from the separated rooms. -/
def finalHalls (width height : Nat) (separated : List Room) : List Room :=
  selectHalls (removeOverboundingRooms width height separated)

/-- The corridor rooms of the environment finished from the separated rooms,
in routing order. -/
def finalCorridors (corridor_width : Int) (width height : Nat) (random : Randomizer)
    (separated : List Room) : List Room :=
  corridorsOf corridor_width (finalHalls width height separated)
    (routeVisits (finalHalls width height separated).length
      (rngEdges (finalHalls width height separated))) random

/-- Two hall positions are joined by an edge of the graph, in either
direction (the graph is undirected). -/
def joined (halls : List Room) (u v : Nat) : Prop :=
  (u, v) ∈ rngEdges halls ∨ (v, u) ∈ rngEdges halls

/-! # Properties -/

/-! ## Separation -/

theorem separateStep_false (padding : Int) (i j : Nat) (st : List Room × Bool)
    (h : (separateStep padding i j st).2 = false) :
    st.2 = false ∧ separateStep padding i j st = st ∧
      ∀ a b, st.1[i]? = some a → st.1[j]? = some b → a.touches b padding = false := by
  unfold separateStep at h ⊢
  cases hi : st.1[i]? with
  | none => simp [hi] at h ⊢; exact h
  | some a =>
    cases hj : st.1[j]? with
    | none => simp [hi, hj] at h ⊢; exact h
    | some b =>
      simp only [hi, hj] at h ⊢
      by_cases ht : a.touches b padding = true
      · simp [ht] at h
      · simp only [ht, if_false] at h ⊢
        refine ⟨h, by simp, ?_⟩
        intro a' b' ha hb
        cases ha; cases hb
        simpa using ht

theorem separateInner_false (padding : Int) (i : Nat) (js : List Nat) (st : List Room × Bool)
    (h : (js.foldl (fun s j => separateStep padding i j s) st).2 = false) :
    st.2 = false ∧ js.foldl (fun s j => separateStep padding i j s) st = st ∧
      ∀ j ∈ js, ∀ a b, st.1[i]? = some a → st.1[j]? = some b → a.touches b padding = false := by
  induction js generalizing st with
  | nil => simpa using h
  | cons j js ih =>
    simp only [List.foldl_cons] at h ⊢
    obtain ⟨h1, h2, h3⟩ := ih _ h
    obtain ⟨g1, g2, g3⟩ := separateStep_false padding i j st h1
    rw [g2] at h2 h3
    refine ⟨g1, by rw [g2]; exact h2, ?_⟩
    intro k hk a b ha hb
    rcases List.mem_cons.1 hk with rfl | hk
    · exact g3 a b ha hb
    · exact h3 k hk a b ha hb

theorem separateOuter_false (padding : Int) (n : Nat) (is : List Nat) (st : List Room × Bool)
    (h : (is.foldl (fun s i => separateInner padding n i s) st).2 = false) :
    st.2 = false ∧ is.foldl (fun s i => separateInner padding n i s) st = st ∧
      ∀ i ∈ is, ∀ j ∈ List.range' (i + 1) (n - (i + 1)), ∀ a b,
        st.1[i]? = some a → st.1[j]? = some b → a.touches b padding = false := by
  induction is generalizing st with
  | nil => simpa using h
  | cons i is ih =>
    simp only [List.foldl_cons] at h ⊢
    obtain ⟨h1, h2, h3⟩ := ih _ h
    obtain ⟨g1, g2, g3⟩ := separateInner_false padding i _ st h1
    have g2' : separateInner padding n i st = st := g2
    rw [g2'] at h2 h3
    refine ⟨g1, by rw [g2']; exact h2, ?_⟩
    intro k hk j hj a b ha hb
    rcases List.mem_cons.1 hk with rfl | hk
    · exact g3 j hj a b ha hb
    · exact h3 k hk j hj a b ha hb

theorem separatePass_false (padding : Int) (rooms : List Room)
    (h : (separatePass padding rooms).2 = false) :
    (separatePass padding rooms).1 = rooms ∧
      ∀ i j (hi : i < rooms.length) (hj : j < rooms.length), i < j →
        (rooms[i]).touches (rooms[j]) padding = false := by
  obtain ⟨_, h2, h3⟩ := separateOuter_false padding rooms.length _ (rooms, false) h
  refine ⟨by unfold separatePass; rw [h2], ?_⟩
  intro i j hi hj hij
  refine h3 i (List.mem_range.2 hi) j ?_ _ _ (List.getElem?_eq_getElem hi)
    (List.getElem?_eq_getElem hj)
  rw [List.mem_range']
  exact ⟨j - (i + 1), by omega, by omega⟩

theorem separateRooms_fixed (padding : Int) (fuel : Nat) (rooms out : List Room)
    (h : separateRooms padding fuel rooms = some out) :
    (separatePass padding out).2 = false := by
  induction fuel generalizing rooms with
  | zero => simp [separateRooms] at h
  | succ fuel ih =>
    simp only [separateRooms] at h
    by_cases ht : (separatePass padding rooms).2 = true
    · rw [if_pos ht] at h; exact ih _ h
    · rw [if_neg ht] at h
      have ht' : (separatePass padding rooms).2 = false := by simpa using ht
      have := (separatePass_false padding rooms ht').1
      cases h
      rw [this]; exact ht'

theorem Room.touches_comm (a b : Room) (padding : Int) :
    a.touches b padding = b.touches a padding := by
  unfold Room.touches
  rw [Bool.eq_iff_iff]
  simp only [Bool.and_eq_true, decide_eq_true_eq]
  tauto

theorem not_touches_overlap (a b : Room) (h : a.touches b 0 = false) :
    overlapX a b ≤ 0 ∨ overlapY a b ≤ 0 := by
  unfold Room.touches at h
  simp only [Bool.and_eq_false_iff, decide_eq_false_iff_not, not_lt] at h
  unfold overlapX overlapY
  rcases h with ((h | h) | h) | h
  · left; have := min_le_right a.getRight b.getRight; have := le_max_left a.getLeft b.getLeft; omega
  · left; have := min_le_left a.getRight b.getRight; have := le_max_right a.getLeft b.getLeft; omega
  · right; have := min_le_right a.getBottom b.getBottom; have := le_max_left a.getTop b.getTop; omega
  · right; have := min_le_left a.getBottom b.getBottom; have := le_max_right a.getTop b.getTop; omega

/-! ## Bounds filter -/

theorem removeScan_eq (width_ height_ : Nat) (fuel : Nat) (rooms : List Room) (room : Nat)
    (h : rooms.length - room ≤ fuel) :
    removeScan width_ height_ fuel rooms room =
      rooms.take room ++ (rooms.drop room).filter (fun r => !overbounding width_ height_ r) := by
  induction fuel generalizing rooms room with
  | zero =>
    have hl : rooms.length ≤ room := by omega
    simp [removeScan, List.take_of_length_le hl, List.drop_of_length_le hl]
  | succ fuel ih =>
    unfold removeScan
    cases hr : rooms[room]? with
    | none =>
      have hl : rooms.length ≤ room := by
        by_contra hc
        rw [List.getElem?_eq_getElem (by omega)] at hr
        cases hr
      simp [List.take_of_length_le hl, List.drop_of_length_le hl]
    | some r =>
      have hl : room < rooms.length := by
        by_contra hc
        rw [List.getElem?_eq_none (by omega)] at hr
        cases hr
      have hr' : rooms[room] = r := by
        rw [List.getElem?_eq_getElem hl] at hr
        exact Option.some.inj hr
      have hd : rooms.drop room = r :: rooms.drop (room + 1) := by
        rw [← hr']; exact List.drop_eq_getElem_cons hl
      simp only []
      by_cases ho : overbounding width_ height_ r = true
      · rw [if_pos ho, ih _ _ (by rw [List.length_eraseIdx]; simp [hl]; omega)]
        rw [hd, List.filter_cons]
        simp only [ho, Bool.not_true, Bool.false_eq_true, if_false]
        rw [List.eraseIdx_eq_take_drop_succ]
        have ht : (rooms.take room).length = room := by simp; omega
        have hdd : List.drop room (List.take room rooms) = [] :=
          List.drop_of_length_le (by omega)
        rw [List.take_append_eq_append_take, List.drop_append_eq_append_drop]
        simp [ht, List.take_take, hdd]
      · rw [if_neg ho, ih _ _ (by omega)]
        rw [hd, List.filter_cons]
        simp only [ho, Bool.not_false, if_true]
        rw [List.take_succ, List.getElem?_eq_getElem hl, hr']
        simp

theorem removeOverboundingRooms_eq_filter (width_ height_ : Nat) (rooms : List Room) :
    removeOverboundingRooms width_ height_ rooms =
      rooms.filter (fun r => !overbounding width_ height_ r) := by
  unfold removeOverboundingRooms
  rw [removeScan_eq _ _ _ _ _ (by omega)]
  simp

/-! ## Corridor routing -/

theorem connectStep_eq (corridor_width_ : Int) (halls acc : List Room) (e : Nat × Nat)
    (r : Randomizer) (h1 : e.1 < halls.length) (h2 : e.2 < halls.length) :
    connectStep corridor_width_ e.1 e.2 (halls ++ acc, r) =
      (halls ++ (acc ++ routeCorridor corridor_width_ halls[e.1] halls[e.2] r.next_rand.1),
        r.next_rand.2) := by
  unfold connectStep
  simp only [List.getElem?_append_left h1, List.getElem?_append_left h2,
    List.getElem?_eq_getElem h1, List.getElem?_eq_getElem h2, List.append_assoc]

theorem connectVisits_eq (corridor_width_ : Int) (halls : List Room) (vs : List (Nat × Nat))
    (acc : List Room) (r : Randomizer)
    (hv : ∀ e ∈ vs, e.1 < halls.length ∧ e.2 < halls.length) :
    vs.foldl (fun s e => connectStep corridor_width_ e.1 e.2 s) (halls ++ acc, r) =
      (halls ++ (acc ++ corridorsOf corridor_width_ halls vs r),
        { r with calls := r.calls + vs.length }) := by
  induction vs generalizing acc r with
  | nil => simp [corridorsOf]
  | cons e vs ih =>
    obtain ⟨h1, h2⟩ := hv e (List.mem_cons_self _ _)
    rw [List.foldl_cons, connectStep_eq _ _ _ _ _ h1 h2,
      ih _ _ (fun e' he' => hv e' (List.mem_cons_of_mem _ he'))]
    simp only [corridorsOf, List.getElem?_eq_getElem h1, List.getElem?_eq_getElem h2,
      List.append_assoc, Randomizer.next_rand, List.length_cons]
    congr 2
    omega

theorem connectRooms_eq_foldl (corridor_width_ : Int) (vertices : Nat) (edges : List (Nat × Nat))
    (st : List Room × Randomizer) :
    connectRooms corridor_width_ vertices edges st =
      (routeVisits vertices edges).foldl (fun s e => connectStep corridor_width_ e.1 e.2 s) st := by
  unfold connectRooms routeVisits
  generalize List.range vertices = vl
  induction vl generalizing st with
  | nil => rfl
  | cons v vl ih =>
    rw [List.foldl_cons, ih, List.flatMap_cons, List.foldl_append, List.foldl_map]

/-! ## Relative-neighbourhood graph -/

theorem squaredDistance_comm (a b : Room) : squaredDistance a b = squaredDistance b a := by
  unfold squaredDistance; ring

theorem hallDistance_comm (halls : List Room) (i j : Nat) :
    hallDistance halls i j = hallDistance halls j i := by
  unfold hallDistance
  cases halls[i]? <;> cases halls[j]? <;> simp [squaredDistance_comm]

theorem skipEdge_iff (halls : List Room) (i j : Nat) :
    skipEdge halls i j = true ↔
      ∃ k, k < halls.length ∧ k ≠ i ∧ k ≠ j ∧
        hallDistance halls i k < hallDistance halls i j ∧
        hallDistance halls j k < hallDistance halls i j := by
  unfold skipEdge
  simp only [List.any_eq_true, List.mem_range, Bool.and_eq_true, bne_iff_ne, ne_eq,
    decide_eq_true_eq]
  constructor
  · rintro ⟨k, hk, ⟨⟨h1, h2⟩, h3⟩, h4⟩
    exact ⟨k, hk, h1, h2, h3, h4⟩
  · rintro ⟨k, hk, h1, h2, h3, h4⟩
    exact ⟨k, hk, ⟨⟨h1, h2⟩, h3⟩, h4⟩

theorem mem_rngEdges (halls : List Room) (i j : Nat) :
    (i, j) ∈ rngEdges halls ↔ i < j ∧ j < halls.length ∧ skipEdge halls i j = false := by
  unfold rngEdges
  simp only [List.mem_flatMap, List.mem_range, List.mem_map, List.mem_filter, List.mem_range',
    Prod.mk.injEq, Bool.and_eq_true, Bool.not_eq_true', bne_iff_ne, ne_eq]
  constructor
  · rintro ⟨a, ha, b, ⟨⟨c, hc, rfl⟩, hs, hne⟩, rfl, rfl⟩
    exact ⟨by omega, by omega, hs⟩
  · rintro ⟨hij, hj, hs⟩
    exact ⟨i, by omega, j, ⟨⟨j - (i + 1), by omega, by omega⟩, hs, by omega⟩, rfl, rfl⟩

theorem rngEdges_nodup (halls : List Room) : (rngEdges halls).Nodup := by
  unfold rngEdges
  rw [List.nodup_flatMap]
  constructor
  · intro i _
    refine List.Nodup.map (fun a b h => (Prod.mk.inj h).2) ?_
    exact List.Nodup.filter _ (List.nodup_range' _ _)
  · refine List.Pairwise.imp_of_mem ?_ (List.nodup_range halls.length)
    intro a b _ _ hab
    simp only [Function.onFun, List.disjoint_left, List.mem_map]
    rintro e ⟨x, _, rfl⟩ ⟨y, _, h⟩
    exact hab (Prod.mk.inj h).1.symm

theorem dominated_of_not_joined (halls : List Room) (u v : Nat) (hu : u < halls.length)
    (hv : v < halls.length) (hne : u ≠ v) (h : ¬ joined halls u v) :
    ∃ k, k < halls.length ∧ k ≠ u ∧ k ≠ v ∧
      hallDistance halls u k < hallDistance halls u v ∧
      hallDistance halls v k < hallDistance halls u v := by
  unfold joined at h
  rw [mem_rngEdges, mem_rngEdges] at h
  rcases Nat.lt_or_gt_of_ne hne with hlt | hgt
  · have hs : skipEdge halls u v = true := by
      by_contra hc
      exact h (Or.inl ⟨hlt, hv, by simpa using hc⟩)
    exact (skipEdge_iff halls u v).1 hs
  · have hs : skipEdge halls v u = true := by
      by_contra hc
      exact h (Or.inr ⟨hgt, hu, by simpa using hc⟩)
    obtain ⟨k, hk, h1, h2, h3, h4⟩ := (skipEdge_iff halls v u).1 hs
    rw [hallDistance_comm halls v u] at h3 h4
    exact ⟨k, hk, h2, h1, h4, h3⟩

/-- C3. Geometric connectivity: in the graph built by `createRNG` every hall
position is joined to every other hall position by a path of edges, whatever
the centres are (ties and coincident centres included). -/
theorem createRNG_connected (halls : List Room) (i j : Nat) (hi : i < halls.length)
    (hj : j < halls.length) : Relation.ReflTransGen (joined halls) i j := by
  classical
  by_contra hcon
  let S : Finset (Nat × Nat) :=
    ((Finset.range halls.length) ×ˢ (Finset.range halls.length)).filter
      (fun p => ¬ Relation.ReflTransGen (joined halls) p.1 p.2)
  have hS : S.Nonempty := ⟨(i, j), by simp [S, hi, hj, hcon]⟩
  obtain ⟨⟨a, b⟩, hab, hmin⟩ :=
    Finset.exists_min_image S (fun p => hallDistance halls p.1 p.2) hS
  simp only [S, Finset.mem_filter, Finset.mem_product, Finset.mem_range] at hab
  obtain ⟨⟨ha, hb⟩, hnr⟩ := hab
  have hne : a ≠ b := by
    rintro rfl
    exact hnr Relation.ReflTransGen.refl
  have hnj : ¬ joined halls a b := fun hjn => hnr (Relation.ReflTransGen.single hjn)
  obtain ⟨k, hk, _, _, h3, h4⟩ := dominated_of_not_joined halls a b ha hb hne hnj
  by_cases hak : Relation.ReflTransGen (joined halls) a k
  · by_cases hkb : Relation.ReflTransGen (joined halls) k b
    · exact hnr (hak.trans hkb)
    · have hm := hmin (k, b) (by simp [S, hk, hb, hkb])
      simp only at hm
      rw [hallDistance_comm halls k b] at hm
      omega
  · have hm := hmin (a, k) (by simp [S, ha, hk, hak])
    simp only at hm
    omega

theorem createRNG_connected_witness :
    0 < [Room.corridor 0 0 0 0, Room.corridor 10 0 0 0, Room.corridor 5 1 0 0].length ∧
    1 < [Room.corridor 0 0 0 0, Room.corridor 10 0 0 0, Room.corridor 5 1 0 0].length ∧
    Relation.ReflTransGen
      (joined [Room.corridor 0 0 0 0, Room.corridor 10 0 0 0, Room.corridor 5 1 0 0]) 0 1 :=
  ⟨by decide, by decide,
    createRNG_connected [Room.corridor 0 0 0 0, Room.corridor 10 0 0 0, Room.corridor 5 1 0 0]
      0 1 (by decide) (by decide)⟩

/-! ## The constructor pipeline -/

theorem connectRooms_halls (corridor_width_ : Int) (halls : List Room) (random : Randomizer) :
    connectRooms corridor_width_ halls.length (rngEdges halls) (halls, random) =
      (halls ++ corridorsOf corridor_width_ halls (routeVisits halls.length (rngEdges halls)) random,
        { random with
          calls := random.calls + (routeVisits halls.length (rngEdges halls)).length }) := by
  rw [connectRooms_eq_foldl]
  have h := connectVisits_eq corridor_width_ halls (routeVisits halls.length (rngEdges halls))
    [] random (by
      rintro ⟨v, n⟩ he
      simp only [routeVisits, adjacentVertices, List.mem_flatMap, List.mem_range, List.mem_map,
        List.mem_filterMap, Prod.mk.injEq] at he
      obtain ⟨a, ha, b, ⟨⟨e1, e2⟩, hmem, hsel⟩, rfl, rfl⟩ := he
      have hm := (mem_rngEdges halls e1 e2).1 hmem
      refine ⟨ha, ?_⟩
      simp only at hsel
      split at hsel
      · cases hsel; exact hm.2.1
      · split at hsel
        · cases hsel; omega
        · cases hsel)
  simpa using h

theorem finishEnvironment_rooms (corridor_width : Int) (width height : Nat) (random : Randomizer)
    (separated : List Room) :
    (finishEnvironment corridor_width width height random separated).rooms_ =
      (finalHalls width height separated ++
        finalCorridors corridor_width width height random separated).reverse := by
  simp only [finishEnvironment, createRNG, connectRooms_halls, finalHalls, finalCorridors]

theorem finishEnvironment_halls (corridor_width : Int) (width height : Nat) (random : Randomizer)
    (separated : List Room) :
    (finishEnvironment corridor_width width height random separated).halls =
      finalHalls width height separated := by
  unfold RosNavigationEnvironment.halls
  rw [finishEnvironment_rooms]
  simp [finishEnvironment, createRNG, finalHalls]

theorem selectHalls_pairwise (R : Room → Room → Prop) (hR : ∀ {x y : Room}, R x y → R y x)
    (rooms : List Room) (h : rooms.Pairwise R) : (selectHalls rooms).Pairwise R := by
  unfold selectHalls sortBySquare
  refine List.Pairwise.sublist (List.take_sublist _ _) ?_
  exact ((List.perm_insertionSort _ rooms).pairwise_iff hR).2 h

/-- C1. No-overlap after separation: whenever `separateRooms` returns, no two
rooms at distinct positions of the result touch under the padding; and for the
padding 0 of the constructor, any two halls of the final output do not touch,
so that their common part has no extent on at least one axis (in particular
they do not overlap by more than one unit). -/
theorem separateRooms_no_overlap (padding : Int) (fuel : Nat) (rooms out : List Room)
    (h : separateRooms padding fuel rooms = some out) :
    (∀ i j (hi : i < out.length) (hj : j < out.length), i ≠ j →
        (out[i]).touches (out[j]) padding = false) ∧
    (padding = 0 → ∀ (corridor_width : Int) (width height : Nat) (random : Randomizer),
        (finishEnvironment corridor_width width height random out).halls.Pairwise
          (fun a b => a.touches b 0 = false ∧ (overlapX a b ≤ 0 ∨ overlapY a b ≤ 0))) := by
  have hfix := separateRooms_fixed padding fuel rooms out h
  have hlt := (separatePass_false padding out hfix).2
  have hne : ∀ i j (hi : i < out.length) (hj : j < out.length), i ≠ j →
      (out[i]).touches (out[j]) padding = false := by
    intro i j hi hj hij
    rcases Nat.lt_or_gt_of_ne hij with hl | hg
    · exact hlt i j hi hj hl
    · rw [Room.touches_comm]; exact hlt j i hj hi hg
  refine ⟨hne, ?_⟩
  rintro rfl corridor_width width height random
  rw [finishEnvironment_halls, finalHalls]
  have hp : out.Pairwise (fun a b => a.touches b 0 = false ∧
      (overlapX a b ≤ 0 ∨ overlapY a b ≤ 0)) := by
    rw [List.pairwise_iff_getElem]
    intro i j hi hj hij
    exact ⟨hlt i j hi hj hij, not_touches_overlap _ _ (hlt i j hi hj hij)⟩
  refine selectHalls_pairwise _ ?_ _ ?_
  · rintro x y ⟨h1, _⟩
    have h1' : y.touches x 0 = false := by rw [Room.touches_comm]; exact h1
    exact ⟨h1', not_touches_overlap _ _ h1'⟩
  · rw [removeOverboundingRooms_eq_filter]
    exact List.Pairwise.sublist (List.filter_sublist _) hp

theorem separateRooms_no_overlap_witness :
    separateRooms 0 5 [Room.random 0 10 10 6 4, Room.random 0 10 10 5 8] =
        some [Room.random 0 12 10 6 4, Room.random 0 7 10 5 8] ∧
      (Room.random 0 12 10 6 4).touches (Room.random 0 7 10 5 8) 0 = false :=
  ⟨by decide,
    (separateRooms_no_overlap 0 5 [Room.random 0 10 10 6 4, Room.random 0 10 10 5 8]
      [Room.random 0 12 10 6 4, Room.random 0 7 10 5 8] (by decide)).1 0 1
      (by decide) (by decide) (by decide)⟩

/-! ## Bounds of the halls -/

/-- What the scan of `removeOverboundingRooms` does guarantee for a survivor:
the four tested inequalities, and with them the x extent inside the canvas
for a room of non-negative width. -/
theorem removeOverboundingRooms_survivor (width_ height_ : Nat) (rooms : List Room) (r : Room)
    (h : r ∈ removeOverboundingRooms width_ height_ rooms) :
    r ∈ rooms ∧ r.getTop < height_ ∧ 0 ≤ r.getBottom ∧ r.getRight < width_ ∧ 0 ≤ r.getLeft := by
  rw [removeOverboundingRooms_eq_filter, List.mem_filter] at h
  obtain ⟨hm, ho⟩ := h
  simp only [overbounding, Bool.not_eq_true', Bool.or_eq_false_iff, decide_eq_false_iff_not,
    not_le, not_lt] at ho
  obtain ⟨⟨⟨h1, h2⟩, h3⟩, h4⟩ := ho
  exact ⟨hm, h1, h2, h3, h4⟩

/-! ## Sparsity and retention of edges -/

/-- C4. Graph sparsity: if a third hall `c` is strictly closer (in squared
centre distance) to both `a` and `b` than they are to each other, the graph
built by `createRNG` has no edge between `a` and `b`, in either direction. -/
theorem createRNG_sparse (halls : List Room) (a b c : Nat)
    (hc : c < halls.length) (hac : a ≠ c) (hbc : b ≠ c)
    (h1 : hallDistance halls a c < hallDistance halls a b)
    (h2 : hallDistance halls b c < hallDistance halls a b) :
    (a, b) ∉ rngEdges halls ∧ (b, a) ∉ rngEdges halls ∧ ¬ joined halls a b := by
  have hab : (a, b) ∉ rngEdges halls := by
    rw [mem_rngEdges]
    rintro ⟨_, _, hs⟩
    have : skipEdge halls a b = true :=
      (skipEdge_iff halls a b).2 ⟨c, hc, fun h => hac h.symm, fun h => hbc h.symm, h1, h2⟩
    rw [hs] at this
    cases this
  have hba : (b, a) ∉ rngEdges halls := by
    rw [mem_rngEdges]
    rintro ⟨_, _, hs⟩
    have : skipEdge halls b a = true := by
      refine (skipEdge_iff halls b a).2 ⟨c, hc, fun h => hbc h.symm, fun h => hac h.symm, ?_, ?_⟩
      · rw [hallDistance_comm halls b a]; exact h2
      · rw [hallDistance_comm halls b a]; exact h1
    rw [hs] at this
    cases this
  refine ⟨hab, hba, ?_⟩
  rintro (h | h)
  · exact hab h
  · exact hba h

theorem createRNG_sparse_witness :
    2 < [Room.corridor 0 0 0 0, Room.corridor 10 0 0 0, Room.corridor 5 1 0 0].length ∧
    (0, 1) ∉ rngEdges [Room.corridor 0 0 0 0, Room.corridor 10 0 0 0, Room.corridor 5 1 0 0] :=
  ⟨by decide,
    (createRNG_sparse [Room.corridor 0 0 0 0, Room.corridor 10 0 0 0, Room.corridor 5 1 0 0]
      0 1 2 (by decide) (by decide) (by decide) (by decide) (by decide)).1⟩

theorem createRNG_graph (rooms : List Room) :
    (createRNG rooms).2.2 = rngEdges (createRNG rooms).1 ∧
      (createRNG rooms).2.1 = (createRNG rooms).1.length ∧
      (createRNG rooms).1 = selectHalls rooms :=
  ⟨rfl, rfl, rfl⟩

theorem rngEdges_three (halls : List Room) (h3 : halls.length = 3)
    (h01 : skipEdge halls 0 1 = false) (h02 : skipEdge halls 0 2 = false)
    (h12 : skipEdge halls 1 2 = false) : rngEdges halls = [(0, 1), (0, 2), (1, 2)] := by
  unfold rngEdges
  rw [h3]
  simp [List.range_succ, List.range'_succ, List.filter_cons, h01, h02, h12]

theorem rngEdges_two (halls : List Room) (h2 : halls.length = 2) :
    rngEdges halls = [(0, 1)] := by
  have hs : skipEdge halls 0 1 = false := by
    by_contra hc
    obtain ⟨k, hk, hk0, hk1, _⟩ := (skipEdge_iff halls 0 1).1 (by simpa using hc)
    omega
  unfold rngEdges
  rw [h2]
  simp [List.range_succ, List.range'_succ, List.filter_cons, hs]

/-- C5. Edge retention with ties: a pair of distinct halls that no third hall
is strictly closer to both of is joined by exactly one edge of the graph built
by `createRNG`; no edge is a self-loop; three halls whose pairwise squared
distances are all equal get the full triangle, two halls the single edge. -/
theorem createRNG_retains (halls : List Room) :
    (∀ a b, a < halls.length → b < halls.length → a ≠ b →
      (∀ c, c < halls.length → c ≠ a → c ≠ b →
        ¬ (hallDistance halls a c < hallDistance halls a b ∧
           hallDistance halls b c < hallDistance halls a b)) →
      ((a, b) ∈ rngEdges halls ∧ (b, a) ∉ rngEdges halls) ∨
        ((b, a) ∈ rngEdges halls ∧ (a, b) ∉ rngEdges halls)) ∧
    (rngEdges halls).Nodup ∧
    (∀ e ∈ rngEdges halls, e.1 ≠ e.2) ∧
    (halls.length = 3 → hallDistance halls 0 1 = hallDistance halls 0 2 →
      hallDistance halls 0 1 = hallDistance halls 1 2 →
      rngEdges halls = [(0, 1), (0, 2), (1, 2)]) ∧
    (halls.length = 2 → rngEdges halls = [(0, 1)]) := by
  refine ⟨?_, rngEdges_nodup halls, ?_, ?_, rngEdges_two halls⟩
  · intro a b ha hb hab hno
    have hj : joined halls a b := by
      by_contra hnj
      obtain ⟨k, hk, h1, h2, h3, h4⟩ := dominated_of_not_joined halls a b ha hb hab hnj
      exact hno k hk h1 h2 ⟨h3, h4⟩
    rcases hj with h | h
    · refine Or.inl ⟨h, ?_⟩
      rw [mem_rngEdges] at h ⊢
      rintro ⟨h', _⟩
      omega
    · refine Or.inr ⟨h, ?_⟩
      rw [mem_rngEdges] at h ⊢
      rintro ⟨h', _⟩
      omega
  · rintro ⟨a, b⟩ he
    have := ((mem_rngEdges halls a b).1 he).1
    simp only [ne_eq]
    omega
  · intro h3 e1 e2
    have hs : ∀ i j, i < 3 → j < 3 → i ≠ j → skipEdge halls i j = false := by
      intro i j hi hj hij
      by_contra hc
      obtain ⟨k, hk, hki, hkj, h1, h2⟩ := (skipEdge_iff halls i j).1 (by simpa using hc)
      have h10 := hallDistance_comm halls 1 0
      have h20 := hallDistance_comm halls 2 0
      have h21 := hallDistance_comm halls 2 1
      have hk3 : k < 3 := by omega
      interval_cases i <;> interval_cases j <;> interval_cases k <;> omega
    exact rngEdges_three halls h3 (hs 0 1 (by omega) (by omega) (by omega))
      (hs 0 2 (by omega) (by omega) (by omega)) (hs 1 2 (by omega) (by omega) (by omega))

theorem createRNG_retains_witness :
    (((0, 2) ∈ rngEdges [Room.corridor 0 0 0 0, Room.corridor 10 0 0 0, Room.corridor 5 1 0 0] ∧
        (2, 0) ∉ rngEdges [Room.corridor 0 0 0 0, Room.corridor 10 0 0 0, Room.corridor 5 1 0 0]) ∨
      ((2, 0) ∈ rngEdges [Room.corridor 0 0 0 0, Room.corridor 10 0 0 0, Room.corridor 5 1 0 0] ∧
        (0, 2) ∉ rngEdges [Room.corridor 0 0 0 0, Room.corridor 10 0 0 0, Room.corridor 5 1 0 0])) ∧
      rngEdges [Room.corridor 7 7 0 0, Room.corridor 7 7 0 0, Room.corridor 7 7 0 0] =
        [(0, 1), (0, 2), (1, 2)] ∧
      rngEdges [Room.corridor 10 10 0 0, Room.corridor 50 10 0 0] = [(0, 1)] :=
  ⟨(createRNG_retains
      [Room.corridor 0 0 0 0, Room.corridor 10 0 0 0, Room.corridor 5 1 0 0]).1 0 2
      (by decide) (by decide) (by decide) (by decide),
    (createRNG_retains
      [Room.corridor 7 7 0 0, Room.corridor 7 7 0 0, Room.corridor 7 7 0 0]).2.2.2.1
      (by decide) (by decide) (by decide),
    (createRNG_retains [Room.corridor 10 10 0 0, Room.corridor 50 10 0 0]).2.2.2.2 (by decide)⟩

/-! ## Hall selection -/

theorem hall_selection_of_sorted (rooms sorted : List Room) (hp : sorted.Perm rooms)
    (hs : sorted.Sorted (fun a b => b.area ≤ a.area)) :
    (sorted.take (rooms.length / 2)).length = rooms.length / 2 ∧
      (sorted.take (rooms.length / 2) ++ sorted.drop (rooms.length / 2)).Perm rooms ∧
      (∀ h ∈ sorted.take (rooms.length / 2), h ∈ rooms) ∧
      ∀ h ∈ sorted.take (rooms.length / 2), ∀ d ∈ sorted.drop (rooms.length / 2),
        d.area ≤ h.area := by
  refine ⟨?_, ?_, ?_, ?_⟩
  · rw [List.length_take, hp.length_eq]; omega
  · rw [List.take_append_drop]; exact hp
  · intro h hh
    exact hp.subset (List.mem_of_mem_take hh)
  · intro h hh d hd
    exact hs.rel_of_mem_take_of_mem_drop hh hd

theorem sortBySquare_sorted (rooms : List Room) :
    (sortBySquare rooms).Sorted (fun a b => b.area ≤ a.area) := by
  unfold sortBySquare
  haveI : IsTotal Room (fun a b => b.area ≤ a.area) := ⟨fun a b => le_total b.area a.area⟩
  haveI : IsTrans Room (fun a b => b.area ≤ a.area) := ⟨fun a b c h1 h2 => le_trans h2 h1⟩
  exact List.sorted_insertionSort _ rooms

/-- C6. Hall selection keeps the larger half: of `n` rooms `createRNG` retains
exactly `n / 2` as halls; the halls together with the dropped rooms are a
rearrangement of the input (so every hall is an input room, unchanged); and no
dropped room has a strictly larger area than a hall. -/
theorem selectHalls_larger_half (rooms : List Room) :
    (createRNG rooms).1 = selectHalls rooms ∧
    (selectHalls rooms).length = rooms.length / 2 ∧
    (selectHalls rooms ++ (sortBySquare rooms).drop (rooms.length / 2)).Perm rooms ∧
    (∀ h ∈ selectHalls rooms, h ∈ rooms) ∧
    (∀ h ∈ selectHalls rooms, ∀ d ∈ (sortBySquare rooms).drop (rooms.length / 2),
      ¬ h.area < d.area) := by
  obtain ⟨h1, h2, h3, h4⟩ := hall_selection_of_sorted rooms (sortBySquare rooms)
    (List.perm_insertionSort _ rooms) (sortBySquare_sorted rooms)
  exact ⟨rfl, h1, h2, h3, fun h hh d hd => not_lt.2 (h4 h hh d hd)⟩

/-! ## Corridor geometry -/

theorem iabs_eq_abs (z : Int) : iabs z = |z| := by
  unfold iabs
  split
  · rw [abs_of_neg (by assumption)]
  · rw [abs_of_nonneg (by omega)]

theorem routeCorridor_cross (w : Int) (room_v room_n : Room) (r : Int) :
    ∃ s1 s2 : Room, routeCorridor w room_v room_n r = [s1, s2] ∧
      (Int.tmod r 2 ≠ 0 → s1.height = w ∧ s2.width = w) ∧
      (Int.tmod r 2 = 0 → s1.width = w ∧ s2.height = w) := by
  unfold routeCorridor
  by_cases hr : Int.tmod r 2 = 0
  · rw [if_neg (not_not.2 hr)]
    exact ⟨_, _, rfl, fun h => absurd hr h, fun _ => ⟨rfl, rfl⟩⟩
  · rw [if_pos hr]
    exact ⟨_, _, rfl, fun _ => ⟨rfl, rfl⟩, fun h => absurd h hr⟩

theorem mem_corridorsOf (w : Int) (halls : List Room) (vs : List (Nat × Nat)) (random : Randomizer)
    (c : Room) (hc : c ∈ corridorsOf w halls vs random) :
    ∃ room_v room_n r, room_v ∈ halls ∧ room_n ∈ halls ∧ c ∈ routeCorridor w room_v room_n r := by
  induction vs generalizing random with
  | nil => simp [corridorsOf] at hc
  | cons e vs ih =>
    unfold corridorsOf at hc
    cases h1 : halls[e.1]? with
    | none => simp only [h1] at hc; exact ih _ hc
    | some a =>
      cases h2 : halls[e.2]? with
      | none => simp only [h1, h2] at hc; exact ih _ hc
      | some b =>
        simp only [h1, h2, List.mem_append] at hc
        rcases hc with hc | hc
        · exact ⟨a, b, _, List.getElem?_mem h1, List.getElem?_mem h2, hc⟩
        · exact ih _ hc

/-- C9. Corridor cross-section: the two rooms pushed for an edge are a
horizontal one of height `corridor_width` and a vertical one of width
`corridor_width` (horizontal first for an odd random value, vertical first for
an even one), and every room that `connectRooms` appends to the halls is one of
the two rooms of such a pair. -/
theorem corridor_cross_section (w : Int) :
    (∀ (room_v room_n : Room) (r : Int),
      ∃ s1 s2 : Room, routeCorridor w room_v room_n r = [s1, s2] ∧
        (Int.tmod r 2 ≠ 0 → s1.height = w ∧ s2.width = w) ∧
        (Int.tmod r 2 = 0 → s1.width = w ∧ s2.height = w)) ∧
    (∀ (halls : List Room) (random : Randomizer),
      ∀ c ∈ (connectRooms w halls.length (rngEdges halls) (halls, random)).1.drop halls.length,
        ∃ (room_v room_n : Room) (r : Int) (s1 s2 : Room),
          routeCorridor w room_v room_n r = [s1, s2] ∧ (c = s1 ∨ c = s2) ∧
          (Int.tmod r 2 ≠ 0 → s1.height = w ∧ s2.width = w) ∧
          (Int.tmod r 2 = 0 → s1.width = w ∧ s2.height = w)) := by
  refine ⟨routeCorridor_cross w, ?_⟩
  intro halls random c hc
  rw [connectRooms_halls] at hc
  simp only [List.drop_left] at hc
  obtain ⟨room_v, room_n, r, _, _, hm⟩ := mem_corridorsOf w halls _ random c hc
  obtain ⟨s1, s2, he, h1, h2⟩ := routeCorridor_cross w room_v room_n r
  rw [he] at hm
  refine ⟨room_v, room_n, r, s1, s2, he, ?_, h1, h2⟩
  simpa using hm

theorem corridor_cross_section_witness :
    ∃ s1 s2 : Room,
      routeCorridor 4 (Room.corridor 10 10 0 0) (Room.corridor 50 10 0 0) 1 = [s1, s2] ∧
        (Int.tmod 1 2 ≠ 0 → s1.height = 4 ∧ s2.width = 4) ∧
        (Int.tmod 1 2 = 0 → s1.width = 4 ∧ s2.height = 4) :=
  (corridor_cross_section 4).1 (Room.corridor 10 10 0 0) (Room.corridor 50 10 0 0) 1

theorem create_eq_finish (fuel amount : Nat) (min_size max_size corridor_width : Int)
    (width height : Nat) (random : Randomizer) (obstacles : Bool)
    (env : RosNavigationEnvironment)
    (h : RosNavigationEnvironment.create fuel amount min_size max_size corridor_width width
      height random obstacles = some env) :
    ∃ separated,
      separateRooms 0 fuel (generateRooms min_size max_size corridor_width width height
        obstacles amount ([], random)).1 = some separated ∧
      env = finishEnvironment corridor_width width height
        (generateRooms min_size max_size corridor_width width height obstacles amount
          ([], random)).2 separated := by
  unfold RosNavigationEnvironment.create at h
  simp only at h
  split at h
  · cases h
  · rename_i separated hs
    exact ⟨separated, hs, (Option.some.inj h).symm⟩

/-! ## Number of corridor rooms -/

theorem length_routeVisits (n : Nat) (edges : List (Nat × Nat)) :
    (routeVisits n edges).length =
      ∑ v in Finset.range n, (adjacentVertices edges v).length := by
  unfold routeVisits
  induction n with
  | zero => simp
  | succ n ih =>
    rw [List.range_succ, List.flatMap_append, List.length_append, ih, Finset.sum_range_succ]
    simp

theorem length_adjacentVertices_cons (e : Nat × Nat) (es : List (Nat × Nat)) (v : Nat)
    (hne : e.1 ≠ e.2) :
    (adjacentVertices (e :: es) v).length =
      ((if e.1 = v then 1 else 0) + (if e.2 = v then 1 else 0)) +
        (adjacentVertices es v).length := by
  unfold adjacentVertices
  rw [List.filterMap_cons]
  by_cases h1 : e.1 = v
  · have h2 : ¬ e.2 = v := fun h => hne (h1.trans h.symm)
    simp [h1, h2]; omega
  · by_cases h2 : e.2 = v
    · simp [h1, h2]; omega
    · simp [h1, h2]

theorem length_routeVisits_valid (n : Nat) (edges : List (Nat × Nat))
    (hv : ∀ e ∈ edges, e.1 < n ∧ e.2 < n ∧ e.1 ≠ e.2) :
    (routeVisits n edges).length = 2 * edges.length := by
  rw [length_routeVisits]
  induction edges with
  | nil => simp [adjacentVertices]
  | cons e es ih =>
    obtain ⟨h1, h2, hne⟩ := hv e (List.mem_cons_self _ _)
    have hs : ∑ v in Finset.range n, (adjacentVertices (e :: es) v).length =
        ∑ v in Finset.range n, (((if e.1 = v then 1 else 0) + (if e.2 = v then 1 else 0)) +
          (adjacentVertices es v).length) :=
      Finset.sum_congr rfl (fun v _ => length_adjacentVertices_cons e es v hne)
    rw [hs, Finset.sum_add_distrib, Finset.sum_add_distrib, Finset.sum_ite_eq,
      Finset.sum_ite_eq, ih (fun e' he' => hv e' (List.mem_cons_of_mem _ he'))]
    simp [h1, h2]
    omega

theorem length_routeCorridor (w : Int) (room_v room_n : Room) (r : Int) :
    (routeCorridor w room_v room_n r).length = 2 := by
  obtain ⟨s1, s2, h, _⟩ := routeCorridor_cross w room_v room_n r
  rw [h]; rfl

theorem length_corridorsOf (w : Int) (halls : List Room) (vs : List (Nat × Nat))
    (random : Randomizer) (hv : ∀ e ∈ vs, e.1 < halls.length ∧ e.2 < halls.length) :
    (corridorsOf w halls vs random).length = 2 * vs.length := by
  induction vs generalizing random with
  | nil => simp [corridorsOf]
  | cons e vs ih =>
    obtain ⟨h1, h2⟩ := hv e (List.mem_cons_self _ _)
    simp only [corridorsOf, List.getElem?_eq_getElem h1, List.getElem?_eq_getElem h2,
      List.length_append, length_routeCorridor, List.length_cons,
      ih _ (fun e' he' => hv e' (List.mem_cons_of_mem _ he'))]
    omega

theorem rngEdges_valid (halls : List Room) :
    ∀ e ∈ rngEdges halls, e.1 < halls.length ∧ e.2 < halls.length ∧ e.1 ≠ e.2 := by
  rintro ⟨a, b⟩ he
  obtain ⟨h1, h2, _⟩ := (mem_rngEdges halls a b).1 he
  exact ⟨by simp only; omega, h2, by simp only [ne_eq]; omega⟩

theorem routeVisits_valid (n : Nat) (edges : List (Nat × Nat))
    (hv : ∀ e ∈ edges, e.1 < n ∧ e.2 < n ∧ e.1 ≠ e.2) :
    ∀ p ∈ routeVisits n edges, p.1 < n ∧ p.2 < n := by
  rintro ⟨v, m⟩ hp
  simp only [routeVisits, adjacentVertices, List.mem_flatMap, List.mem_range, List.mem_map,
    List.mem_filterMap, Prod.mk.injEq] at hp
  obtain ⟨a, ha, b, ⟨e, hmem, hsel⟩, rfl, rfl⟩ := hp
  obtain ⟨h1, h2, _⟩ := hv e hmem
  refine ⟨ha, ?_⟩
  split at hsel
  · cases hsel; exact h2
  · split at hsel
    · cases hsel; exact h1
    · cases hsel

/-- What `connectRooms` does for every hall sequence: each edge of the graph is
visited from both of its end points, so four rooms are appended and two random
values drawn per edge. -/
theorem connectRooms_growth (w : Int) (halls : List Room) (random : Randomizer) :
    (connectRooms w halls.length (rngEdges halls) (halls, random)).1.length =
        halls.length + 4 * (rngEdges halls).length ∧
      (connectRooms w halls.length (rngEdges halls) (halls, random)).2.calls =
        random.calls + 2 * (rngEdges halls).length := by
  rw [connectRooms_halls]
  have hl := length_routeVisits_valid halls.length (rngEdges halls) (rngEdges_valid halls)
  have hc := length_corridorsOf w halls (routeVisits halls.length (rngEdges halls)) random
    (routeVisits_valid halls.length (rngEdges halls) (rngEdges_valid halls))
  refine ⟨?_, ?_⟩
  · simp only [List.length_append, hc, hl]
    omega
  · simp only [hl]

/-- C7. One edge, routed twice: for two halls with centres (10,10) and (50,10)
the graph has the single edge (0,1), and `connectRooms` visits it from vertex 0
and again from vertex 1, so that four corridor rooms are appended and two
random values are drawn, where one routing per edge would append two rooms and
draw one value. -/
theorem connectRooms_routes_edge_twice :
    rngEdges [Room.corridor 10 10 0 0, Room.corridor 50 10 0 0] = [(0, 1)] ∧
    routeVisits 2 [(0, 1)] = [(0, 1), (1, 0)] ∧
    (connectRooms 4 2 [(0, 1)]
        ([Room.corridor 10 10 0 0, Room.corridor 50 10 0 0], ⟨fun n => (n : Int), 0⟩)).1 =
      [Room.corridor 10 10 0 0, Room.corridor 50 10 0 0,
       Room.corridor 10 10 4 0, Room.corridor 10 10 40 4,
       Room.corridor 10 10 44 4, Room.corridor 50 10 4 0] ∧
    (connectRooms 4 2 [(0, 1)]
        ([Room.corridor 10 10 0 0, Room.corridor 50 10 0 0], ⟨fun n => (n : Int), 0⟩)).2.calls =
      2 ∧
    (RosNavigationEnvironment.create 10 4 8 16 4 67 67
        ⟨fun n => ((n * 7919 + 13) % 101 : Nat) - 20, 0⟩ false).map
        (fun e => (e.room_vertices_, e.room_graph_, e.rooms_.length, e.random_.calls)) =
      some (2, [(0, 1)], 6, 10) := by
  decide

/-! ## Degenerate result -/

theorem rngEdges_of_length_lt_two (halls : List Room) (h : halls.length < 2) :
    rngEdges halls = [] := by
  rw [List.eq_nil_iff_forall_not_mem]
  rintro ⟨a, b⟩ he
  obtain ⟨h1, h2, _⟩ := (mem_rngEdges halls a b).1 he
  omega

theorem routeVisits_nil (n : Nat) : routeVisits n [] = [] := by
  simp [routeVisits, adjacentVertices]

theorem reverse_of_length_lt_two (l : List Room) (h : l.length < 2) : l.reverse = l := by
  match l, h with
  | [], _ => rfl
  | [_], _ => rfl
  | _ :: _ :: _, h => exact absurd h (by simp)

/-- C11. Degenerate result: when at most 3 rooms pass the bounds filter, fewer
than 2 halls remain, the graph has no edges, `connectRooms` appends no room and
draws no random value, and the output is exactly the remaining halls: one room
when one hall remains, the empty sequence when none does. -/
theorem degenerate_result (corridor_width : Int) (width height : Nat) (random : Randomizer)
    (separated : List Room)
    (h : (removeOverboundingRooms width height separated).length ≤ 3) :
    (finalHalls width height separated).length < 2 ∧
    rngEdges (finalHalls width height separated) = [] ∧
    (finishEnvironment corridor_width width height random separated).room_graph_ = [] ∧
    connectRooms corridor_width (finalHalls width height separated).length
        (rngEdges (finalHalls width height separated))
        (finalHalls width height separated, random) =
      (finalHalls width height separated, random) ∧
    (finishEnvironment corridor_width width height random separated).random_ = random ∧
    (finishEnvironment corridor_width width height random separated).rooms_ =
      finalHalls width height separated ∧
    ((finalHalls width height separated).length = 1 →
      ∃ hall, (finishEnvironment corridor_width width height random separated).rooms_ = [hall]) ∧
    ((finalHalls width height separated).length = 0 →
      (finishEnvironment corridor_width width height random separated).rooms_ = []) := by
  have hl : (finalHalls width height separated).length < 2 := by
    have hp := (List.perm_insertionSort (fun a b : Room => b.area ≤ a.area)
      (removeOverboundingRooms width height separated)).length_eq
    simp only [finalHalls, selectHalls, sortBySquare, List.length_take, hp]
    omega
  have he := rngEdges_of_length_lt_two _ hl
  have hc : connectRooms corridor_width (finalHalls width height separated).length
      (rngEdges (finalHalls width height separated))
      (finalHalls width height separated, random) =
      (finalHalls width height separated, random) := by
    rw [connectRooms_eq_foldl, he, routeVisits_nil]
    rfl
  have hr : (finishEnvironment corridor_width width height random separated).rooms_ =
      finalHalls width height separated := by
    have : (finishEnvironment corridor_width width height random separated).rooms_ =
        (connectRooms corridor_width (finalHalls width height separated).length
          (rngEdges (finalHalls width height separated))
          (finalHalls width height separated, random)).1.reverse := rfl
    rw [this, hc]
    exact reverse_of_length_lt_two _ hl
  have hrand : (finishEnvironment corridor_width width height random separated).random_ =
      random := by
    have : (finishEnvironment corridor_width width height random separated).random_ =
        (connectRooms corridor_width (finalHalls width height separated).length
          (rngEdges (finalHalls width height separated))
          (finalHalls width height separated, random)).2 := rfl
    rw [this, hc]
  refine ⟨hl, he, he, hc, hrand, hr, ?_, ?_⟩
  · intro h1
    rw [hr]
    match hf : finalHalls width height separated, h1 with
    | [hall], _ => exact ⟨hall, rfl⟩
  · intro h0
    rw [hr]
    exact List.length_eq_zero.1 h0

theorem degenerate_result_witness :
    (removeOverboundingRooms 24 24
        [Room.random 0 12 17 11 11, Room.random 0 12 7 11 10]).length ≤ 3 ∧
      (finishEnvironment 2 24 24 ⟨fun _ => 0, 4⟩
        [Room.random 0 12 17 11 11, Room.random 0 12 7 11 10]).rooms_ =
        finalHalls 24 24 [Room.random 0 12 17 11 11, Room.random 0 12 7 11 10] :=
  ⟨by decide,
    (degenerate_result 2 24 24 ⟨fun _ => 0, 4⟩
      [Room.random 0 12 17 11 11, Room.random 0 12 7 11 10] (by decide)).2.2.2.2.2.1⟩

/-! ## Room generation -/

theorem generateRooms_eq (min_size max_size corridor_width : Int) (width height : Nat)
    (obstacles : Bool) (amount : Nat) (st : List Room × Randomizer) :
    generateRooms min_size max_size corridor_width width height obstacles amount st =
      (st.1 ++ (List.range amount).map
          (generatedRoom min_size max_size corridor_width width height obstacles st.2),
        { st.2 with calls := st.2.calls + 2 * amount }) := by
  induction amount generalizing st with
  | zero => simp [generateRooms]
  | succ amount ih =>
    rw [generateRooms, ih]
    simp only [Randomizer.next_rand, List.append_assoc, List.singleton_append]
    refine Prod.ext ?_ ?_
    · simp only
      congr 1
      rw [List.range_succ_eq_map, List.map_cons, List.map_map]
      refine congrArg₂ _ ?_ ?_
      · simp [generatedRoom]
      · refine List.map_congr_left (fun k _ => ?_)
        simp only [generatedRoom, Function.comp]
        have e1 : st.2.calls + 1 + 1 + 2 * k = st.2.calls + 2 * (k + 1) := by omega
        rw [e1]
    · simp only
      congr 1
      omega

/-- C13. A generated room larger than `max_size`: with `min_size = 4` and
`max_size = 8` (what `main` derives for a quotient of 1) and the random values
7, 7 the constructor creates a room of width and height
`7 % 8 + 4 = 11 > max_size`; the room sizes range over
`[min_size, min_size + max_size)`. -/
theorem generated_room_exceeds_max_size :
    deriveSizes 1 none = (4, 8) ∧
    (generateRooms 4 8 2 24 24 false 1 ([], ⟨fun _ => 7, 0⟩)).1 =
      [Room.random 0 12 12 11 11] ∧
    ¬ (Room.random 0 12 12 11 11).width ≤ 8 ∧
    ¬ (Room.random 0 12 12 11 11).height ≤ 8 := by
  decide

/-- C14. Initial population: for the room count `N` (0 coerced to 1) the
generation loop run by the constructor creates exactly `2 N` rooms, room `k`
from the draws `2 k` and `2 k + 1` of the randomness source, so that two values
per room are consumed, and every room is placed at `(width / 2, height / 2)`. -/
theorem initial_population (room_amount : Nat) (min_size max_size corridor_width : Int)
    (width height : Nat) (obstacles : Bool) (random : Randomizer) :
    coerceRoomAmount 0 = 1 ∧
    (room_amount ≠ 0 → coerceRoomAmount room_amount = room_amount) ∧
    (generateRooms min_size max_size corridor_width width height obstacles
        (coerceRoomAmount room_amount * 2) ([], random)).1 =
      (List.range (2 * coerceRoomAmount room_amount)).map
        (generatedRoom min_size max_size corridor_width width height obstacles random) ∧
    (generateRooms min_size max_size corridor_width width height obstacles
        (coerceRoomAmount room_amount * 2) ([], random)).1.length =
      2 * coerceRoomAmount room_amount ∧
    (generateRooms min_size max_size corridor_width width height obstacles
        (coerceRoomAmount room_amount * 2) ([], random)).2.calls =
      random.calls + 2 * (2 * coerceRoomAmount room_amount) ∧
    (∀ r ∈ (generateRooms min_size max_size corridor_width width height obstacles
        (coerceRoomAmount room_amount * 2) ([], random)).1,
      r.x = ((width / 2 : Nat) : Int) ∧ r.y = ((height / 2 : Nat) : Int)) := by
  have hm : coerceRoomAmount room_amount * 2 = 2 * coerceRoomAmount room_amount :=
    Nat.mul_comm _ _
  rw [generateRooms_eq, hm]
  refine ⟨rfl, fun h => by simp [coerceRoomAmount, h], by simp, by simp, rfl, ?_⟩
  intro r hr
  simp only [List.nil_append, List.mem_map] at hr
  obtain ⟨k, _, rfl⟩ := hr
  exact ⟨rfl, rfl⟩

theorem initial_population_witness :
    coerceRoomAmount 3 = 3 :=
  (initial_population 3 4 8 2 24 24 false ⟨fun _ => 7, 0⟩).2.1 (by decide)

theorem deriveSizes_lt (q : Int) (sizeOptions : Option (Int × Int))
    (h : 0 < q ∨ sizeOptions.isSome = true) :
    (deriveSizes q sizeOptions).1 < (deriveSizes q sizeOptions).2 := by
  unfold deriveSizes
  cases sizeOptions with
  | none =>
    rcases h with h | h
    · simp only; omega
    · cases h
  | some o =>
    simp only
    have := le_max_right o.2 (max (q * 4) o.1 + 1)
    omega

/-- C15. A zero modulus: when the quotient of robot size by resolution is 0
and the size options are absent, `main` hands `min_size = 0` and
`max_size = 0` to the constructor, so `max_size` does not exceed `min_size`
and the modulus of the size draws is 0; the branch of the size options guards
this with `min_size + 1`. A room count of 0 is coerced to 1. -/
theorem derived_max_size_zero :
    deriveSizes 0 none = (0, 0) ∧
    ¬ (deriveSizes 0 none).1 < (deriveSizes 0 none).2 ∧
    (deriveSizes 0 none).2 = 0 ∧
    (deriveSizes 0 (some (0, 0))).1 < (deriveSizes 0 (some (0, 0))).2 ∧
    coerceRoomAmount 0 = 1 := by
  decide

/-! ## Dimensions -/

theorem separateDeltas_eq (a b : Room) (padding : Int) :
    separateDeltas a b padding =
      if iabs (overlapDeltaX a b padding) < iabs (overlapDeltaY a b padding) then
        (overlapDeltaX a b padding, 0)
      else (0, overlapDeltaY a b padding) := rfl

theorem separatePair_eq (a b : Room) (padding : Int) :
    separatePair a b padding =
      (a.relocate (halveDelta (separateDeltas a b padding).1).1
          (halveDelta (separateDeltas a b padding).2).1,
        b.relocate (halveDelta (separateDeltas a b padding).1).2
          (halveDelta (separateDeltas a b padding).2).2) := rfl

theorem overlapDelta_eq (a b : Room) (padding : Int) (hp : 0 ≤ padding)
    (haw : 0 ≤ a.width) (hah : 0 ≤ a.height) (hbw : 0 ≤ b.width) (hbh : 0 ≤ b.height) :
    overlapDeltaX a b padding = a.getLeft - b.getRight - padding ∧
      overlapDeltaY a b padding = a.getTop - b.getBottom - padding := by
  unfold overlapDeltaX overlapDeltaY Room.getLeft Room.getRight Room.getTop Room.getBottom
  constructor
  · exact min_eq_right (by omega)
  · exact min_eq_right (by omega)

/-- C16. The delta is not the candidate of smaller magnitude: for the first two
rooms the constructor generates from the random values 1, 7, 5, 7 (a 5 x 11 and
a 9 x 11 room at the same position), which touch, the x candidates are 5 and
-9; `std::min` yields -9, of magnitude 9, and this is the delta that is kept,
although the candidate 5 has the smaller magnitude. -/
theorem delta_not_minimal :
    (generateRooms 4 8 2 24 24 false 2
        ([], ⟨fun n => if n = 0 then 1 else if n = 2 then 5 else 7, 0⟩)).1 =
      [Room.random 0 12 12 5 11, Room.random 0 12 12 9 11] ∧
    (Room.random 0 12 12 5 11).touches (Room.random 0 12 12 9 11) 0 = true ∧
    (Room.random 0 12 12 5 11).getRight - (Room.random 0 12 12 9 11).getLeft + 0 = 5 ∧
    (Room.random 0 12 12 5 11).getLeft - (Room.random 0 12 12 9 11).getRight - 0 = -9 ∧
    overlapDeltaX (Room.random 0 12 12 5 11) (Room.random 0 12 12 9 11) 0 = -9 ∧
    separateDeltas (Room.random 0 12 12 5 11) (Room.random 0 12 12 9 11) 0 = (-9, 0) ∧
    iabs 5 < iabs (-9) := by
  decide

/-- C17. Single-axis relocation: the x delta is kept exactly when
`|delta_x| < |delta_y|`, otherwise (ties included) the y delta is kept; the
other delta is zeroed, so that both rooms of the pair are translated along the
kept axis only. -/
theorem single_axis_relocation (a b : Room) (padding : Int) :
    (|overlapDeltaX a b padding| < |overlapDeltaY a b padding| →
      separateDeltas a b padding = (overlapDeltaX a b padding, 0) ∧
      separatePair a b padding =
        (a.relocate (halveDelta (overlapDeltaX a b padding)).1 0,
         b.relocate (halveDelta (overlapDeltaX a b padding)).2 0) ∧
      (separatePair a b padding).1.y = a.y ∧ (separatePair a b padding).2.y = b.y) ∧
    (¬ |overlapDeltaX a b padding| < |overlapDeltaY a b padding| →
      separateDeltas a b padding = (0, overlapDeltaY a b padding) ∧
      separatePair a b padding =
        (a.relocate 0 (halveDelta (overlapDeltaY a b padding)).1,
         b.relocate 0 (halveDelta (overlapDeltaY a b padding)).2) ∧
      (separatePair a b padding).1.x = a.x ∧ (separatePair a b padding).2.x = b.x) := by
  have h0 : halveDelta 0 = (0, 0) := by decide
  constructor
  · intro h
    have hd : separateDeltas a b padding = (overlapDeltaX a b padding, 0) := by
      rw [separateDeltas_eq, iabs_eq_abs, iabs_eq_abs, if_pos h]
    rw [separatePair_eq, hd]
    simp [h0, Room.relocate]
  · intro h
    have hd : separateDeltas a b padding = (0, overlapDeltaY a b padding) := by
      rw [separateDeltas_eq, iabs_eq_abs, iabs_eq_abs, if_neg h]
    rw [separatePair_eq, hd]
    simp [h0, Room.relocate]

theorem single_axis_relocation_witness :
    separateDeltas (Room.random 0 12 12 5 11) (Room.random 0 12 12 9 11) 0 =
      (overlapDeltaX (Room.random 0 12 12 5 11) (Room.random 0 12 12 9 11) 0, 0) :=
  ((single_axis_relocation (Room.random 0 12 12 5 11) (Room.random 0 12 12 9 11) 0).1
    (by decide)).1

/-! ## Halving of a delta -/

theorem halveDelta_nonneg (delta : Int) (h : 0 ≤ delta) :
    halveDelta delta = (-(delta / 2), delta - delta / 2) := by
  unfold halveDelta
  rw [Int.neg_tdiv, Int.tdiv_eq_ediv h (by decide)]
  rfl

theorem halveDelta_neg (delta : Int) (h : delta < 0) :
    halveDelta delta = ((-delta) / 2, delta + (-delta) / 2) := by
  unfold halveDelta
  rw [Int.tdiv_eq_ediv (by omega) (by decide)]

/-- C18. Halving split: for every delta the displacements
`delta_a = -delta / 2` (truncating) and `delta_b = delta + delta_a` differ by
`delta`, never have the same strict sign, and their magnitudes satisfy
`|delta_a| <= |delta_b| <= |delta_a| + 1`, the second room taking the extra unit
of an odd delta. -/
theorem halving_split (delta : Int) :
    (halveDelta delta).2 - (halveDelta delta).1 = delta ∧
    (halveDelta delta).1 * (halveDelta delta).2 ≤ 0 ∧
    (0 ≤ delta → (halveDelta delta).1 ≤ 0 ∧ 0 ≤ (halveDelta delta).2) ∧
    (delta ≤ 0 → 0 ≤ (halveDelta delta).1 ∧ (halveDelta delta).2 ≤ 0) ∧
    |(halveDelta delta).1| ≤ |(halveDelta delta).2| ∧
    |(halveDelta delta).2| ≤ |(halveDelta delta).1| + 1 ∧
    (delta % 2 = 0 → |(halveDelta delta).2| = |(halveDelta delta).1|) ∧
    (delta % 2 = 1 → |(halveDelta delta).2| = |(halveDelta delta).1| + 1) := by
  rcases le_or_lt 0 delta with h | h
  · rw [halveDelta_nonneg delta h]
    simp only
    have h1 : -(delta / 2) ≤ 0 := by omega
    have h2 : 0 ≤ delta - delta / 2 := by omega
    rw [abs_of_nonpos h1, abs_of_nonneg h2]
    refine ⟨by omega, ?_, fun _ => ⟨h1, h2⟩, fun _ => ⟨by omega, by omega⟩, by omega,
      by omega, fun _ => by omega, fun _ => by omega⟩
    exact mul_nonpos_of_nonpos_of_nonneg h1 h2
  · rw [halveDelta_neg delta h]
    simp only
    have h1 : 0 ≤ (-delta) / 2 := by omega
    have h2 : delta + (-delta) / 2 ≤ 0 := by omega
    rw [abs_of_nonneg h1, abs_of_nonpos h2]
    refine ⟨by omega, ?_, fun _ => ⟨by omega, by omega⟩, fun _ => ⟨h1, h2⟩, by omega,
      by omega, fun _ => by omega, fun _ => by omega⟩
    exact mul_nonpos_of_nonneg_of_nonpos h1 h2

theorem halving_split_witness :
    (halveDelta (-9)).1 = 4 ∧ (halveDelta (-9)).2 = -5 ∧
      |(halveDelta (-9)).2| = |(halveDelta (-9)).1| + 1 :=
  ⟨by decide, by decide, (halving_split (-9)).2.2.2.2.2.2.2 (by decide)⟩

/-! ## Relocation of a pair and the bounds filter as a filter -/

/-- C19. A relocation step resolves its pair: for rooms `a`, `b` of
non-negative size and a padding `p >= 0`, the pair relocated by `separateRooms`
(which relocates the pairs that touch) does not touch; along the kept axis the
rooms are exactly `p` apart (`a.left - b.right = p` when x is kept,
`a.top - b.bottom = p` when y is kept), and both rooms keep their sizes. -/
theorem relocation_resolves_pair (a b : Room) (padding : Int) (hp : 0 ≤ padding)
    (haw : 0 ≤ a.width) (hah : 0 ≤ a.height) (hbw : 0 ≤ b.width) (hbh : 0 ≤ b.height) :
    (separatePair a b padding).1.touches (separatePair a b padding).2 padding = false ∧
    (|overlapDeltaX a b padding| < |overlapDeltaY a b padding| →
      (separatePair a b padding).1.getLeft - (separatePair a b padding).2.getRight = padding) ∧
    (¬ |overlapDeltaX a b padding| < |overlapDeltaY a b padding| →
      (separatePair a b padding).1.getTop - (separatePair a b padding).2.getBottom = padding) ∧
    (separatePair a b padding).1.width = a.width ∧
    (separatePair a b padding).1.height = a.height ∧
    (separatePair a b padding).2.width = b.width ∧
    (separatePair a b padding).2.height = b.height := by
  obtain ⟨hx, hy⟩ := overlapDelta_eq a b padding hp haw hah hbw hbh
  have h0 : halveDelta 0 = (0, 0) := by decide
  have hsplit : ∀ d : Int, (halveDelta d).2 = d + (halveDelta d).1 := fun d => rfl
  by_cases h : |overlapDeltaX a b padding| < |overlapDeltaY a b padding|
  · have hd : separateDeltas a b padding = (overlapDeltaX a b padding, 0) := by
      rw [separateDeltas_eq, iabs_eq_abs, iabs_eq_abs, if_pos h]
    have hgap : (separatePair a b padding).1.getLeft -
        (separatePair a b padding).2.getRight = padding := by
      rw [separatePair_eq, hd]
      simp only [h0, Room.relocate, Room.getLeft, Room.getRight, hsplit] at hx ⊢
      omega
    refine ⟨?_, fun _ => hgap, fun h' => absurd h h', rfl, rfl, rfl, rfl⟩
    unfold Room.touches
    simp only [Bool.and_eq_false_iff, decide_eq_false_iff_not, not_lt]
    exact Or.inl (Or.inl (Or.inl (le_of_eq hgap.symm)))
  · have hd : separateDeltas a b padding = (0, overlapDeltaY a b padding) := by
      rw [separateDeltas_eq, iabs_eq_abs, iabs_eq_abs, if_neg h]
    have hgap : (separatePair a b padding).1.getTop -
        (separatePair a b padding).2.getBottom = padding := by
      rw [separatePair_eq, hd]
      simp only [h0, Room.relocate, Room.getTop, Room.getBottom, hsplit] at hy ⊢
      omega
    refine ⟨?_, fun h' => absurd h' h, fun _ => hgap, rfl, rfl, rfl, rfl⟩
    unfold Room.touches
    simp only [Bool.and_eq_false_iff, decide_eq_false_iff_not, not_lt]
    exact Or.inl (Or.inr (le_of_eq hgap.symm))

theorem relocation_resolves_pair_witness :
    (Room.random 0 12 12 5 11).touches (Room.random 0 12 12 9 11) 0 = true ∧
      (separatePair (Room.random 0 12 12 5 11) (Room.random 0 12 12 9 11) 0).1.touches
        (separatePair (Room.random 0 12 12 5 11) (Room.random 0 12 12 9 11) 0).2 0 = false :=
  ⟨by decide,
    (relocation_resolves_pair (Room.random 0 12 12 5 11) (Room.random 0 12 12 9 11) 0
      (by decide) (by decide) (by decide) (by decide) (by decide)).1⟩

theorem separateStep_touching (padding : Int) (i j : Nat) (rooms : List Room) (flag : Bool)
    (a b : Room) (hi : rooms[i]? = some a) (hj : rooms[j]? = some b)
    (ht : a.touches b padding = true) :
    separateStep padding i j (rooms, flag) =
      ((rooms.set i (separatePair a b padding).1).set j (separatePair a b padding).2, true) := by
  simp only [separateStep, hi, hj, ht, if_true]

/-- C20. The bounds filter equals a pure filter: the erase scan of
`removeOverboundingRooms` returns exactly the rooms for which none of the four
out-of-bounds tests holds, in their original order, unchanged: a subsequence of
the input that contains a room exactly when the room is in the input and passes
the four tests; the empty sequence when every room fails one of them. -/
theorem removeOverboundingRooms_refines_filter (width_ height_ : Nat) (rooms : List Room) :
    removeOverboundingRooms width_ height_ rooms = boundsFilterSpec width_ height_ rooms ∧
    (removeOverboundingRooms width_ height_ rooms).Sublist rooms ∧
    (∀ r, r ∈ removeOverboundingRooms width_ height_ rooms ↔
      r ∈ rooms ∧ r.getTop < height_ ∧ 0 ≤ r.getBottom ∧ r.getRight < width_ ∧
        0 ≤ r.getLeft) ∧
    (∀ r, (removeOverboundingRooms width_ height_ rooms).count r ≤ rooms.count r) ∧
    ((∀ r ∈ rooms, overbounding width_ height_ r = true) →
      removeOverboundingRooms width_ height_ rooms = []) ∧
    ((∀ r ∈ rooms, overbounding width_ height_ r = false) →
      removeOverboundingRooms width_ height_ rooms = rooms) := by
  have he := removeOverboundingRooms_eq_filter width_ height_ rooms
  refine ⟨he, ?_, ?_, ?_, ?_, ?_⟩
  · rw [he]; exact List.filter_sublist _
  · intro r
    rw [he, List.mem_filter]
    simp only [overbounding, Bool.not_eq_true', Bool.or_eq_false_iff, decide_eq_false_iff_not,
      not_le, not_lt]
    tauto
  · intro r
    rw [he]
    exact (List.filter_sublist _).count_le r
  · intro h
    rw [he, List.filter_eq_nil_iff]
    intro r hr
    simp [h r hr]
  · intro h
    rw [he, List.filter_eq_self]
    intro r hr
    simp [h r hr]

theorem removeOverboundingRooms_refines_filter_witness :
    removeOverboundingRooms 100 100
        [Room.corridor (-1) 5 10 10, Room.corridor (-3) 5 10 10, Room.corridor 1 5 10 10,
          Room.corridor 95 5 10 10, Room.corridor 2 5 10 10, Room.corridor 5 (-20) 10 10] =
      [Room.corridor 1 5 10 10, Room.corridor 2 5 10 10] ∧
    removeOverboundingRooms 100 100
        [Room.corridor (-1) 5 10 10, Room.corridor (-3) 5 10 10] = [] :=
  ⟨((removeOverboundingRooms_refines_filter 100 100
      [Room.corridor (-1) 5 10 10, Room.corridor (-3) 5 10 10, Room.corridor 1 5 10 10,
        Room.corridor 95 5 10 10, Room.corridor 2 5 10 10, Room.corridor 5 (-20) 10 10]).1).trans
      (by decide),
    (removeOverboundingRooms_refines_filter 100 100
      [Room.corridor (-1) 5 10 10, Room.corridor (-3) 5 10 10]).2.2.2.2.1 (by decide)⟩

end RosMap
